import Mathlib

/-!
Verification of the Privacy-Cash shielded-pool core.

This file embeds the Rust code of the `zkcash` Anchor program
(`src/anchor/programs/zkcash/src/`) in Lean and proves properties of it.

Modelling conventions:
* 32-byte values (`[u8; 32]`) that are only compared for equality (tree
  leaves, roots, subtree hashes) are modelled as `Nat`; the all-zero byte
  array corresponds to `0`.
* Byte strings whose individual bytes matter (`public_amount_bytes`,
  inputs of `change_endianness`) are modelled as `List Nat`, one entry per
  byte.
* `u64` arithmetic is modelled on `Nat` with explicit bounds against
  `U64MOD = 2 ^ 64`; `i64` values are modelled as `Int`.
* A Rust function that can panic (a failing `unwrap`, an overflowing
  negation) is modelled with `Option`: `none` is the panic outcome.
* The Poseidon hasher is an external crate (`light_hasher`), so the tree
  code, which is generic over `H: Hasher` in Rust, is parametrised by a
  `Hasher` structure supplying `hashv` and the `zero_bytes` constants.
-/

namespace PrivacyCash

/-- The error enum of `lib.rs` (`#[error_code] pub enum ErrorCode`). -/
inductive ErrorCode where
  | Unauthorized
  | ExtDataHashMismatch
  | UnknownRoot
  | InvalidPublicAmountData
  | InsufficientFundsForWithdrawal
  | InsufficientFundsForFee
  | InvalidProof
  | InvalidFee
  | InvalidExtAmount
  | PublicAmountCalculationError
  | ArithmeticOverflow
  | TokenMintMismatch
deriving DecidableEq, Repr

deriving instance DecidableEq for Except

/-- Modulus of `u64`. -/
def U64MOD : Nat := 18446744073709551616

/-- Largest `i64` value, `i64::MAX`. -/
def I64MAX : Nat := 9223372036854775807

/-- The BN254 scalar field modulus `p` (`ark_bn254::Fr::MODULUS`),
used only to state the spec side of the amount-check claims. -/
def FIELD_MODULUS : Nat :=
  21888242871839275222246405745257275088548364400416034343698204186575808495617

/-- Big-endian interpretation of a byte list, modelling
`u64::from_be_bytes` when applied to 8 bytes. -/
def beNat (l : List Nat) : Nat :=
  l.foldl (fun acc b => acc * 256 + b) 0

/-- Embedding of `check_external_amount` from
`src/anchor/programs/zkcash/src/utils.rs` lines 79-134.

The Rust function takes `(ext_amount: i64, fee: u64, public_amount_bytes:
[u8; 32])` and returns `Result<(u64, u64)>`.  The outer `Option` models
panics: the function calls `.unwrap()` on `public_amount.checked_add(fee)`
and on `ext_amount_abs.checked_add(fee)` (panic on `u64` overflow), and
for `ext_amount = i64::MIN` the expression
`u64::try_from(-ext_amount).unwrap()` panics (the negation overflows and
the conversion fails); those executions are `none`. -/
def checkExternalAmount (extAmount : Int) (fee : Nat) (publicAmountBytes : List Nat) :
    Option (Except ErrorCode (Nat × Nat)) :=
  -- for i in 0..24 { if public_amount_bytes[i] != 0 { return Err(InvalidPublicAmountData) } }
  if (publicAmountBytes.take 24).any (fun b => b != 0) then
    some (Except.error ErrorCode.InvalidPublicAmountData)
  else
    -- let public_amount = u64::from_be_bytes(public_amount_bytes[24..32])
    let publicAmount := beNat (publicAmountBytes.drop 24)
    -- if public_amount > i64::MAX as u64 { return Err(InvalidPublicAmountData) }
    if I64MAX < publicAmount then
      some (Except.error ErrorCode.InvalidPublicAmountData)
    else if 0 < extAmount then
      -- let ext_amount_u64: u64 = ext_amount.try_into().unwrap()  (safe: ext_amount > 0)
      -- if public_amount.checked_add(fee).unwrap() != ext_amount_u64 { Err } else Ok
      if U64MOD ≤ publicAmount + fee then none
      else if publicAmount + fee ≠ extAmount.toNat then
        some (Except.error ErrorCode.InvalidPublicAmountData)
      else some (Except.ok (extAmount.toNat, fee))
    else if extAmount < 0 then
      -- let ext_amount_abs: u64 = u64::try_from(-ext_amount).unwrap()  (panics at i64::MIN)
      if extAmount = -(2 ^ 63) then none
      else
        let extAbs := (-extAmount).toNat
        -- if public_amount != ext_amount_abs.checked_add(fee).unwrap() { Err } else Ok
        if U64MOD ≤ extAbs + fee then none
        else if publicAmount ≠ extAbs + fee then
          some (Except.error ErrorCode.InvalidPublicAmountData)
        else some (Except.ok (extAbs, fee))
    else
      -- ext_amount == 0
      some (Except.ok (0, fee))

/-- The 32-byte chunking performed by `bytes.chunks(32)` in Rust. -/
def chunks32 (l : List Nat) : List (List Nat) :=
  if h : l = [] then []
  else l.take 32 :: chunks32 (l.drop 32)
termination_by l.length
decreasing_by
  simp only [List.length_drop]
  have : 0 < l.length := List.length_pos.mpr h
  omega

/-- Embedding of `change_endianness` from
`src/anchor/programs/zkcash/src/utils.rs` lines 180-188: for each 32-byte
chunk of the input, push its bytes in reverse order. -/
def changeEndianness (bytes : List Nat) : List Nat :=
  ((chunks32 bytes).map List.reverse).flatten

/-- `ROOT_HISTORY_SIZE` from `merkle_tree.rs`. -/
def ROOT_HISTORY_SIZE : Nat := 100

/-- `DEFAULT_HEIGHT` from `merkle_tree.rs`. -/
def DEFAULT_HEIGHT : Nat := 26

/-- Abstraction of the `light_hasher::Hasher` trait as used by the tree
code: a two-input hash `hashv(&[&left, &right])` and the precomputed
empty-subtree constants `zero_bytes()` (in `lib.rs` the instantiation is
Poseidon, which lives in an external crate). -/
structure Hasher where
  hashv : Nat → Nat → Nat
  zeroBytes : Nat → Nat

/-- The persisted tree fields of `MerkleTreeAccount` in `lib.rs`
(`authority`, `token_mint` and `bump` are identity fields that the tree
algorithms never read or write, so they are omitted). -/
structure MerkleTreeAccount where
  nextIndex : Nat
  subtrees : List Nat
  root : Nat
  rootHistory : List Nat
  rootIndex : Nat
deriving DecidableEq, Repr

/-- A freshly allocated (zeroed) account, as produced by Anchor's
`load_init` together with the `next_index = 0; root_index = 0`
assignments of `initialize_tree` in `lib.rs`. -/
def freshAccount : MerkleTreeAccount :=
  { nextIndex := 0
    subtrees := List.replicate DEFAULT_HEIGHT 0
    root := 0
    rootHistory := List.replicate ROOT_HISTORY_SIZE 0
    rootIndex := 0 }

/-- Embedding of `MerkleTree::initialize` from `merkle_tree.rs` lines
11-22: set every `subtrees[i]` to `zero_bytes[i]`, set `root` to
`zero_bytes[DEFAULT_HEIGHT]` and seed `root_history[0]` with it. -/
def treeInitialize (H : Hasher) (acc : MerkleTreeAccount) : MerkleTreeAccount :=
  { acc with
    subtrees := (List.range DEFAULT_HEIGHT).map H.zeroBytes
    root := H.zeroBytes DEFAULT_HEIGHT
    rootHistory := acc.rootHistory.set 0 (H.zeroBytes DEFAULT_HEIGHT) }

/-- The tree state produced by the `initialize_tree` instruction of
`lib.rs`: a zeroed account passed through `MerkleTree::initialize`. -/
def initTree (H : Hasher) : MerkleTreeAccount :=
  treeInitialize H freshAccount

/-- The level loop of `MerkleTree::append` (`merkle_tree.rs` lines
34-51).  Walks the `subtrees` list together with the level index `i` and
the current insertion index; returns the updated subtree list, the
per-level proof and the final hash.  At an even index the sibling is
`zero_bytes[i]` and the cached subtree is overwritten with the current
hash; at an odd index the sibling is the cached subtree. -/
def appendLoop (H : Hasher) (i curIdx cur : Nat) :
    List Nat → (List Nat × List Nat × Nat)
  | [] => ([], [], cur)
  | st :: rest =>
    if curIdx % 2 = 0 then
      let res := appendLoop H (i + 1) (curIdx / 2) (H.hashv cur (H.zeroBytes i)) rest
      (cur :: res.1, H.zeroBytes i :: res.2.1, res.2.2)
    else
      let res := appendLoop H (i + 1) (curIdx / 2) (H.hashv st cur) rest
      (st :: res.1, st :: res.2.1, res.2.2)

/-- Embedding of `MerkleTree::append` from `merkle_tree.rs` lines 24-65.

Rust mutates `tree_account` in place, so the model returns the account
state alongside the `Result`: mutations made before an early `?` return
(the loop's subtree writes and the `tree_account.root` assignment on
line 53) persist even when the function returns an error, exactly as in
the Rust source.  `next_index` is bumped with `checked_add` (error
`ArithmeticOverflow` at `u64::MAX`), then `root_index` is bumped with
`checked_add` on `usize` and reduced `% ROOT_HISTORY_SIZE`, and the new
root is recorded in `root_history`. -/
def append (H : Hasher) (leaf : Nat) (acc : MerkleTreeAccount) :
    MerkleTreeAccount × Except ErrorCode (List Nat) :=
  let res := appendLoop H 0 acc.nextIndex leaf acc.subtrees
  let acc1 := { acc with subtrees := res.1, root := res.2.2 }
  if U64MOD ≤ acc.nextIndex + 1 then
    (acc1, Except.error ErrorCode.ArithmeticOverflow)
  else
    let acc2 := { acc1 with nextIndex := acc.nextIndex + 1 }
    if U64MOD ≤ acc.rootIndex + 1 then
      (acc2, Except.error ErrorCode.ArithmeticOverflow)
    else
      let newRootIndex := (acc.rootIndex + 1) % ROOT_HISTORY_SIZE
      ({ acc2 with
          rootIndex := newRootIndex
          rootHistory := acc2.rootHistory.set newRootIndex res.2.2 },
        Except.ok res.2.1)

/-- The scan loop of `MerkleTree::is_known_root` (`merkle_tree.rs` lines
75-89), made structurally recursive on a fuel argument.  The Rust loop
always terminates within `ROOT_HISTORY_SIZE` iterations when
`root_index < ROOT_HISTORY_SIZE` (it stops when the cursor returns to
`root_index`), so fuel `ROOT_HISTORY_SIZE` reproduces it exactly on such
states; on states where Rust would instead panic with an out-of-bounds
index the model returns `false`. -/
def isKnownRootLoop (hist : List Nat) (cand r : Nat) : Nat → Nat → Bool
  | 0, _ => false
  | fuel + 1, i =>
    if hist.getD i 0 = cand then true
    else
      let i2 := if i = 0 then ROOT_HISTORY_SIZE - 1 else i - 1
      if i2 = r then false else isKnownRootLoop hist cand r fuel i2

/-- Embedding of `MerkleTree::is_known_root` from `merkle_tree.rs` lines
67-92: the all-zero value is rejected outright, otherwise the history is
scanned backward from `root_index` with wraparound for one full cycle. -/
def isKnownRoot (acc : MerkleTreeAccount) (cand : Nat) : Bool :=
  if cand = 0 then false
  else isKnownRootLoop acc.rootHistory cand acc.rootIndex ROOT_HISTORY_SIZE acc.rootIndex

/-- Sequentially append a list of leaves, keeping the in-place state of
each call as the Rust caller would (the returned proof is discarded). -/
def appendAll (H : Hasher) (acc : MerkleTreeAccount) : List Nat → MerkleTreeAccount
  | [] => acc
  | l :: ls => appendAll H (append H l acc).1 ls

/-- The roots observed after each append of a leaf sequence. -/
def rootsAfter (H : Hasher) (acc : MerkleTreeAccount) : List Nat → List Nat
  | [] => []
  | l :: ls =>
    ((append H l acc).1).root :: rootsAfter H (append H l acc).1 ls

/-- All historical roots of a run from a fresh tree: the initial (empty)
root followed by the root after each append. -/
def historicalRoots (H : Hasher) (leaves : List Nat) : List Nat :=
  (initTree H).root :: rootsAfter H (initTree H) leaves

/-- Embedding of `verify_and_process_transaction` from `lib.rs` lines
62-177, restricted to its effect on the tree account.  The checks that
consult accounts outside the tree are abstracted as parameters in source
order: `pdasOk` (the four PDA validations), `authorityOk`, `mintOk`,
`extDataHashOk` (the serialized-`ExtData` hash comparison), `amountOk`
(the `utils::check_public_amount` call — that function is not part of the
sources under `src/`, only this call site is), `proofOk`
(`utils::verify_proof`), and `transfersResult` (the deposit / withdraw /
fee ledger transfers).  The root-freshness check uses the embedded
`isKnownRoot`, and the two output commitments are appended with the
embedded `append`; an error anywhere propagates like the Rust `?` and
`require!`, keeping whatever in-place tree mutations already happened. -/
def verifyAndProcessTransaction (H : Hasher)
    (pdasOk authorityOk mintOk extDataHashOk amountOk proofOk : Bool)
    (transfersResult : Except ErrorCode Unit)
    (proofRoot c0 c1 : Nat) (acc : MerkleTreeAccount) :
    MerkleTreeAccount × Except ErrorCode Unit :=
  if pdasOk = false then (acc, Except.error ErrorCode.Unauthorized)
  else if authorityOk = false then (acc, Except.error ErrorCode.Unauthorized)
  else if mintOk = false then (acc, Except.error ErrorCode.TokenMintMismatch)
  else if isKnownRoot acc proofRoot = false then (acc, Except.error ErrorCode.UnknownRoot)
  else if extDataHashOk = false then (acc, Except.error ErrorCode.ExtDataHashMismatch)
  else if amountOk = false then (acc, Except.error ErrorCode.InvalidPublicAmountData)
  else if proofOk = false then (acc, Except.error ErrorCode.InvalidProof)
  else
    match transfersResult with
    | Except.error e => (acc, Except.error e)
    | Except.ok _ =>
      -- let next_index_to_insert = tree_account.next_index
      let nextIndexToInsert := acc.nextIndex
      match append H c0 acc with
      | (acc1, Except.error e) => (acc1, Except.error e)
      | (acc1, Except.ok _) =>
        match append H c1 acc1 with
        | (acc2, Except.error e) => (acc2, Except.error e)
        | (acc2, Except.ok _) =>
          -- commitment1.index = next_index_to_insert.checked_add(1)?
          if U64MOD ≤ nextIndexToInsert + 1 then
            (acc2, Except.error ErrorCode.ArithmeticOverflow)
          else (acc2, Except.ok ())

/-- A concrete hasher used to instantiate the generic tree code in
counterexamples and witnesses: the hash projects to its right input, and
the empty-subtree constant of depth `i` is `i + 1` (all distinct and
nonzero). -/
def projHasher : Hasher :=
  { hashv := fun _ r => r
    zeroBytes := fun i => i + 1 }

/-- A concrete tree state with `next_index = u64::MAX`, used to
exercise the overflow path of `append`.  Its root-history invariant
`root_history[root_index] == root` holds (`root_history[0] = 5 = root`). -/
def cexAcc : MerkleTreeAccount :=
  { nextIndex := 18446744073709551615
    subtrees := List.replicate DEFAULT_HEIGHT 3
    root := 5
    rootHistory := (List.replicate ROOT_HISTORY_SIZE 0).set 0 5
    rootIndex := 0 }

/-- 32-byte big-endian encoding of the number 100 (24 zero bytes followed
by the 8-byte big-endian u64 100). -/
def enc100 : List Nat := List.replicate 24 0 ++ [0, 0, 0, 0, 0, 0, 0, 100]

/-- 32-byte big-endian encoding of the number 90. -/
def enc90 : List Nat := List.replicate 24 0 ++ [0, 0, 0, 0, 0, 0, 0, 90]

/-! ### Helper lemmas about `change_endianness` -/

lemma chunks32_nil : chunks32 [] = [] := by
  rw [chunks32]; simp

lemma chunks32_of_ne (l : List Nat) (h : l ≠ []) :
    chunks32 l = l.take 32 :: chunks32 (l.drop 32) := by
  rw [chunks32]; simp [h]

lemma ce_nil : changeEndianness [] = [] := by
  simp [changeEndianness, chunks32_nil]

lemma ce_short (l : List Nat) (h : l.length ≤ 32) :
    changeEndianness l = l.reverse := by
  rcases eq_or_ne l [] with rfl | hne
  · simp [ce_nil]
  · have h1 : l.take 32 = l := List.take_of_length_le h
    have h2 : l.drop 32 = [] := List.drop_eq_nil_of_le h
    simp [changeEndianness, chunks32_of_ne l hne, h1, h2, chunks32_nil]

lemma ce_append32 (c r : List Nat) (hc : c.length = 32) :
    changeEndianness (c ++ r) = c.reverse ++ changeEndianness r := by
  have hne : c ++ r ≠ [] := by
    intro h
    have := congrArg List.length h
    simp [hc] at this
  have htake : (c ++ r).take 32 = c := by
    rw [← hc]; exact List.take_left c r
  have hdrop : (c ++ r).drop 32 = r := by
    rw [← hc]; exact List.drop_left c r
  simp [changeEndianness, chunks32_of_ne _ hne, htake, hdrop]

lemma ce_length : ∀ n (l : List Nat), l.length ≤ n →
    (changeEndianness l).length = l.length := by
  intro n
  induction n with
  | zero =>
    intro l hl
    have : l = [] := List.eq_nil_of_length_eq_zero (by omega)
    subst this
    simp [ce_nil]
  | succ n ih =>
    intro l hl
    by_cases h32 : l.length ≤ 32
    · rw [ce_short l h32]; simp
    · have hsplit : l = l.take 32 ++ l.drop 32 := (List.take_append_drop 32 l).symm
      have htl : (l.take 32).length = 32 := by
        simp only [List.length_take]
        omega
      calc (changeEndianness l).length
          = (changeEndianness (l.take 32 ++ l.drop 32)).length := by rw [← hsplit]
        _ = ((l.take 32).reverse ++ changeEndianness (l.drop 32)).length := by
              rw [ce_append32 _ _ htl]
        _ = 32 + (changeEndianness (l.drop 32)).length := by
              simp [htl]
        _ = 32 + (l.drop 32).length := by
              rw [ih (l.drop 32) (by simp only [List.length_drop]; omega)]
        _ = l.length := by
              simp only [List.length_drop]
              omega

lemma ce_invol : ∀ n (l : List Nat), l.length ≤ n →
    changeEndianness (changeEndianness l) = l := by
  intro n
  induction n with
  | zero =>
    intro l hl
    have : l = [] := List.eq_nil_of_length_eq_zero (by omega)
    subst this
    simp [ce_nil]
  | succ n ih =>
    intro l hl
    by_cases h32 : l.length ≤ 32
    · rw [ce_short l h32, ce_short l.reverse (by simp [h32]), List.reverse_reverse]
    · have hsplit : l = l.take 32 ++ l.drop 32 := (List.take_append_drop 32 l).symm
      have htl : (l.take 32).length = 32 := by
        simp only [List.length_take]
        omega
      have htr : (l.take 32).reverse.length = 32 := by simp [htl]
      conv_lhs => rw [hsplit]
      rw [ce_append32 _ _ htl, ce_append32 _ _ htr, List.reverse_reverse,
        ih (l.drop 32) (by simp only [List.length_drop]; omega)]
      exact hsplit.symm

/-! ### Helper lemmas about `check_external_amount` -/

lemma any_ne_zero_eq_false_iff (l : List Nat) :
    (l.any fun b => b != 0) = false ↔ l = List.replicate l.length 0 := by
  constructor
  · intro h
    apply List.eq_replicate_of_mem
    intro b hb
    have h2 := List.any_eq_false.mp h b hb
    simpa using h2
  · intro h
    apply List.any_eq_false.mpr
    intro b hb
    rw [h] at hb
    simp [List.eq_of_mem_replicate hb]

/-! ### Helper lemmas about lists -/

lemma getD_set_self (l : List Nat) (i v : Nat) (h : i < l.length) :
    (l.set i v).getD i 0 = v := by
  induction l generalizing i with
  | nil => simp at h
  | cons a t ih =>
    cases i with
    | zero => rfl
    | succ j => simpa using ih j (by simpa using h)

lemma getD_set_ne (l : List Nat) (i j v : Nat) (h : i ≠ j) :
    (l.set i v).getD j 0 = l.getD j 0 := by
  induction l generalizing i j with
  | nil => simp [List.set]
  | cons a t ih =>
    cases i with
    | zero =>
      cases j with
      | zero => exact absurd rfl h
      | succ k => rfl
    | succ i2 =>
      cases j with
      | zero => rfl
      | succ k => simpa using ih i2 k (by omega)

lemma mem_of_getD (l : List Nat) (j : Nat) (h : j < l.length) :
    l.getD j 0 ∈ l := by
  induction l generalizing j with
  | nil => simp at h
  | cons a t ih =>
    cases j with
    | zero => simp [List.getD]
    | succ k =>
      have := ih k (by simpa using Nat.lt_of_succ_lt_succ h)
      simpa [List.getD] using Or.inr this

lemma getD_of_mem (l : List Nat) (a : Nat) (h : a ∈ l) :
    ∃ j, j < l.length ∧ l.getD j 0 = a := by
  induction l with
  | nil => simp at h
  | cons b t ih =>
    rcases List.mem_cons.mp h with rfl | h2
    · exact ⟨0, by simp, rfl⟩
    · obtain ⟨j, hj, hg⟩ := ih h2
      exact ⟨j + 1, by simp; omega, hg⟩

/-! ### Helper lemmas about `append` -/

lemma appendLoop_subtrees_odd (H : Hasher) :
    ∀ (sts : List Nat) (i cur curIdx : Nat),
      (∀ j, j < sts.length → curIdx / 2 ^ j % 2 = 1) →
      (appendLoop H i curIdx cur sts).1 = sts := by
  intro sts
  induction sts with
  | nil => intro i cur curIdx _; rfl
  | cons st rest ih =>
    intro i cur curIdx hodd
    have h0 : curIdx % 2 = 1 := by simpa using hodd 0 (by simp)
    have hne : ¬curIdx % 2 = 0 := by omega
    simp only [appendLoop, if_neg hne, List.cons.injEq, true_and]
    apply ih
    intro j hj
    have h2 := hodd (j + 1) (by simp only [List.length_cons]; omega)
    rwa [pow_succ', ← Nat.div_div_eq_div_mul] at h2

lemma append_ok_fields (H : Hasher) (leaf : Nat) (acc acc2 : MerkleTreeAccount)
    (prf : List Nat) (h : append H leaf acc = (acc2, Except.ok prf)) :
    acc.nextIndex + 1 < U64MOD ∧
    acc2.nextIndex = acc.nextIndex + 1 ∧
    acc2.rootIndex = (acc.rootIndex + 1) % ROOT_HISTORY_SIZE ∧
    acc2.root = (appendLoop H 0 acc.nextIndex leaf acc.subtrees).2.2 ∧
    acc2.subtrees = (appendLoop H 0 acc.nextIndex leaf acc.subtrees).1 ∧
    acc2.rootHistory = acc.rootHistory.set ((acc.rootIndex + 1) % ROOT_HISTORY_SIZE)
      (appendLoop H 0 acc.nextIndex leaf acc.subtrees).2.2 := by
  unfold append at h
  by_cases h1 : U64MOD ≤ acc.nextIndex + 1
  · rw [if_pos h1] at h
    simp at h
  · rw [if_neg h1] at h
    by_cases h2 : U64MOD ≤ acc.rootIndex + 1
    · rw [if_pos h2] at h
      simp at h
    · rw [if_neg h2] at h
      rw [Prod.mk.injEq] at h
      obtain ⟨ha, _⟩ := h
      rw [← ha]
      exact ⟨by omega, rfl, rfl, rfl, rfl, rfl⟩

/-! ### Helper lemmas about `is_known_root` -/

lemma isKnownRootLoop_iff (hist : List Nat) (cand r : Nat) (hr : r < 100) :
    ∀ fuel i, i < 100 → (i + 99 - r) % 100 + 1 ≤ fuel →
      (isKnownRootLoop hist cand r fuel i = true ↔
        ∃ k, k ≤ (i + 99 - r) % 100 ∧ hist.getD ((i + 100 - k) % 100) 0 = cand) := by
  intro fuel
  induction fuel with
  | zero =>
    intro i hi hd
    exact absurd hd (by omega)
  | succ fuel ih =>
    intro i hi hd
    by_cases hhit : hist.getD i 0 = cand
    · simp only [isKnownRootLoop, if_pos hhit, true_iff]
      exact ⟨0, by omega, by rw [(by omega : (i + 100 - 0) % 100 = i)]; exact hhit⟩
    · have hunf : isKnownRootLoop hist cand r (fuel + 1) i =
          (if (if i = 0 then 99 else i - 1) = r then false
           else isKnownRootLoop hist cand r fuel (if i = 0 then 99 else i - 1)) := by
        simp only [isKnownRootLoop, if_neg hhit, ROOT_HISTORY_SIZE]
      rw [hunf]
      have hi2cases : (i = 0 ∧ (if i = 0 then 99 else i - 1) = 99) ∨
          (1 ≤ i ∧ (if i = 0 then 99 else i - 1) = i - 1) := by
        by_cases h : i = 0
        · exact Or.inl ⟨h, by simp [h]⟩
        · exact Or.inr ⟨by omega, by simp [h]⟩
      by_cases hstop : (if i = 0 then 99 else i - 1) = r
      · rw [if_pos hstop]
        constructor
        · intro h
          exact absurd h (by simp)
        · rintro ⟨k, hk, hfound⟩
          have hd0 : (i + 99 - r) % 100 = 0 := by
            rcases hi2cases with ⟨h1, h2⟩ | ⟨h1, h2⟩ <;> rw [h2] at hstop <;> omega
          have hk0 : k = 0 := by omega
          subst hk0
          rw [(by omega : (i + 100 - 0) % 100 = i)] at hfound
          exact absurd hfound hhit
      · rw [if_neg hstop]
        have hi2lt : (if i = 0 then 99 else i - 1) < 100 := by
          rcases hi2cases with ⟨_, h2⟩ | ⟨h1, h2⟩ <;> rw [h2] <;> omega
        have hdstep : ((if i = 0 then 99 else i - 1) + 99 - r) % 100 + 1 =
            (i + 99 - r) % 100 := by
          rcases hi2cases with ⟨h1, h2⟩ | ⟨h1, h2⟩ <;> rw [h2] <;> rw [h2] at hstop <;> omega
        rw [ih (if i = 0 then 99 else i - 1) hi2lt (by omega)]
        constructor
        · rintro ⟨k, hk, hfound⟩
          refine ⟨k + 1, by omega, ?_⟩
          have hsh : (i + 100 - (k + 1)) % 100 =
              ((if i = 0 then 99 else i - 1) + 100 - k) % 100 := by
            rcases hi2cases with ⟨h1, h2⟩ | ⟨h1, h2⟩ <;> rw [h2] <;>
              (try rw [h2] at hk) <;> omega
          rw [hsh]
          exact hfound
        · rintro ⟨k, hk, hfound⟩
          cases k with
          | zero =>
            rw [(by omega : (i + 100 - 0) % 100 = i)] at hfound
            exact absurd hfound hhit
          | succ k2 =>
            refine ⟨k2, by omega, ?_⟩
            have hsh : ((if i = 0 then 99 else i - 1) + 100 - k2) % 100 =
                (i + 100 - (k2 + 1)) % 100 := by
              rcases hi2cases with ⟨h1, h2⟩ | ⟨h1, h2⟩ <;> rw [h2] <;>
                (try rw [h2] at hk) <;> omega
            rw [hsh]
            exact hfound

lemma isKnownRoot_iff (acc : MerkleTreeAccount) (cand : Nat)
    (hlen : acc.rootHistory.length = ROOT_HISTORY_SIZE)
    (hidx : acc.rootIndex < ROOT_HISTORY_SIZE) :
    isKnownRoot acc cand = true ↔
      (cand ≠ 0 ∧ ∃ j, j < ROOT_HISTORY_SIZE ∧ acc.rootHistory.getD j 0 = cand) := by
  unfold isKnownRoot
  by_cases hz : cand = 0
  · simp [hz]
  · rw [if_neg hz]
    have h100 : acc.rootIndex < 100 := hidx
    rw [show (ROOT_HISTORY_SIZE : Nat) = 100 from rfl,
      isKnownRootLoop_iff acc.rootHistory cand acc.rootIndex h100 100 acc.rootIndex h100
        (by omega)]
    constructor
    · rintro ⟨k, hk, hfound⟩
      exact ⟨hz, (acc.rootIndex + 100 - k) % 100, Nat.mod_lt _ (by omega), hfound⟩
    · rintro ⟨_, j, hj, hfound⟩
      refine ⟨(acc.rootIndex + 100 - j) % 100, by omega, ?_⟩
      rw [show (acc.rootIndex + 100 - (acc.rootIndex + 100 - j) % 100) % 100 = j by omega]
      exact hfound

/-! ### Helper lemmas about `appendAll` -/

lemma appendAll_facts (H : Hasher) :
    ∀ (leaves : List Nat) (acc : MerkleTreeAccount),
      acc.rootHistory.length = ROOT_HISTORY_SIZE →
      acc.rootIndex + leaves.length ≤ 99 →
      acc.nextIndex + leaves.length ≤ 99 →
      ((appendAll H acc leaves).rootHistory.length = ROOT_HISTORY_SIZE ∧
       (appendAll H acc leaves).rootIndex = acc.rootIndex + leaves.length ∧
       (∀ j, j ≤ acc.rootIndex →
         (appendAll H acc leaves).rootHistory.getD j 0 = acc.rootHistory.getD j 0) ∧
       (∀ r ∈ rootsAfter H acc leaves, ∃ j, j < ROOT_HISTORY_SIZE ∧
         (appendAll H acc leaves).rootHistory.getD j 0 = r)) := by
  intro leaves
  induction leaves with
  | nil =>
    intro acc h1 _ _
    refine ⟨h1, by simp [appendAll], fun j _ => rfl, ?_⟩
    intro r hr
    simp [rootsAfter] at hr
  | cons l ls ih =>
    intro acc h1 h2 h3
    simp only [List.length_cons] at h2 h3
    have hnov : ¬ U64MOD ≤ acc.nextIndex + 1 := by
      simp only [U64MOD]; omega
    have hrov : ¬ U64MOD ≤ acc.rootIndex + 1 := by
      simp only [U64MOD]; omega
    have hmod : (acc.rootIndex + 1) % ROOT_HISTORY_SIZE = acc.rootIndex + 1 := by
      apply Nat.mod_eq_of_lt
      simp only [ROOT_HISTORY_SIZE]
      omega
    have happ : (append H l acc).1 =
        { acc with
          subtrees := (appendLoop H 0 acc.nextIndex l acc.subtrees).1
          root := (appendLoop H 0 acc.nextIndex l acc.subtrees).2.2
          nextIndex := acc.nextIndex + 1
          rootIndex := acc.rootIndex + 1
          rootHistory := acc.rootHistory.set (acc.rootIndex + 1)
            (appendLoop H 0 acc.nextIndex l acc.subtrees).2.2 } := by
      simp [append, hnov, hrov, hmod]
    have hlen1 : (append H l acc).1.rootHistory.length = ROOT_HISTORY_SIZE := by
      rw [happ]
      simp only [List.length_set]
      exact h1
    have hri1 : (append H l acc).1.rootIndex = acc.rootIndex + 1 := by rw [happ]
    have hni1 : (append H l acc).1.nextIndex = acc.nextIndex + 1 := by rw [happ]
    obtain ⟨ih1, ih2, ih3, ih4⟩ := ih (append H l acc).1 hlen1
      (by rw [hri1]; omega) (by rw [hni1]; omega)
    refine ⟨?_, ?_, ?_, ?_⟩
    · simpa [appendAll] using ih1
    · show (appendAll H (append H l acc).1 ls).rootIndex = acc.rootIndex + (l :: ls).length
      rw [ih2, hri1]
      simp only [List.length_cons]
      omega
    · intro j hj
      show (appendAll H (append H l acc).1 ls).rootHistory.getD j 0 = acc.rootHistory.getD j 0
      rw [ih3 j (by omega)]
      rw [happ]
      exact getD_set_ne _ _ _ _ (by omega)
    · intro r hr
      simp only [rootsAfter] at hr
      rcases List.mem_cons.mp hr with rfl | hr2
      · refine ⟨acc.rootIndex + 1, by simp only [ROOT_HISTORY_SIZE]; omega, ?_⟩
        show (appendAll H (append H l acc).1 ls).rootHistory.getD (acc.rootIndex + 1) 0 =
          (append H l acc).1.root
        rw [ih3 (acc.rootIndex + 1) (by rw [hri1])]
        rw [happ]
        exact getD_set_self _ _ _ (by rw [h1]; simp only [ROOT_HISTORY_SIZE]; omega)
      · exact ih4 r hr2

/-! ## Claims -/

/-- C3 (amended): for a positive `ext_amount`, `check_external_amount`
accepts exactly when the first 24 bytes of `public_amount` are zero and
its last 8 bytes, read as a big-endian u64 `v`, satisfy
`v + fee = ext_amount`; there is no modular congruence, and in
particular `ext_amount = fee` is accepted with `v = 0`, contradicting
the claim's blanket rejection of `ext_amount ≤ fee`. -/
theorem C3_deposit_check (ext : Int) (fee : Nat) (bytes : List Nat)
    (hpos : 0 < ext) (hmax : ext < 2 ^ 63) (hlen : bytes.length = 32) :
    checkExternalAmount ext fee bytes = some (Except.ok (ext.toNat, fee)) ↔
      (bytes.take 24 = List.replicate 24 0 ∧
       beNat (bytes.drop 24) + fee = ext.toNat) := by
  have htlen : (bytes.take 24).length = 24 := by
    simp only [List.length_take]
    omega
  have hext : ext.toNat < 2 ^ 63 := by omega
  unfold checkExternalAmount
  by_cases hpre : (bytes.take 24).any (fun b => b != 0) = true
  · rw [if_pos hpre]
    constructor
    · intro h
      simp at h
    · rintro ⟨h1, _⟩
      rw [h1] at hpre
      exact absurd hpre (by decide)
  · rw [if_neg hpre]
    have htake : bytes.take 24 = List.replicate 24 0 := by
      have h2 := (any_ne_zero_eq_false_iff (bytes.take 24)).mp
        (Bool.eq_false_iff.mpr hpre ▸ rfl)
      rwa [htlen] at h2
    simp only []
    by_cases hv : I64MAX < beNat (bytes.drop 24)
    · rw [if_pos hv]
      constructor
      · intro h
        simp at h
      · rintro ⟨_, h2⟩
        have : beNat (bytes.drop 24) ≤ ext.toNat := by omega
        simp only [I64MAX] at hv
        omega
    · rw [if_neg hv, if_pos hpos]
      by_cases hov : U64MOD ≤ beNat (bytes.drop 24) + fee
      · rw [if_pos hov]
        constructor
        · intro h
          simp at h
        · rintro ⟨_, h2⟩
          simp only [U64MOD] at hov
          omega
      · rw [if_neg hov]
        by_cases heq : beNat (bytes.drop 24) + fee = ext.toNat
        · rw [if_neg (by simpa using heq)]
          simp [htake, heq]
        · rw [if_pos (by simpa using heq)]
          constructor
          · intro h
            simp at h
          · rintro ⟨_, h2⟩
            exact absurd h2 heq

/-- C3 counterexample: the claim as stated says the check rejects
whenever `ext_amount ≤ fee`, but the code accepts `ext_amount = 100`,
`fee = 100` with an all-zero `public_amount` (the check only requires
`public_amount + fee == ext_amount`). -/
theorem C3_counterexample :
    (100 : Int) ≤ ((100 : Nat) : Int) ∧
      checkExternalAmount 100 100 (List.replicate 32 0) =
        some (Except.ok (100, 100)) := by
  constructor
  · decide
  · decide

/-- C3 witness: the deposit example of the spec, `ext_amount = 100`,
`fee = 10`, `public_amount = 90`. -/
theorem C3_witness :
    checkExternalAmount 100 10 enc90 = some (Except.ok ((100 : Int).toNat, 10)) ↔
      (enc90.take 24 = List.replicate 24 0 ∧
       beNat (enc90.drop 24) + 10 = (100 : Int).toNat) :=
  C3_deposit_check 100 10 enc90 (by decide) (by decide) (by decide)

/-- C1 (amended): for a negative `ext_amount` other than `i64::MIN`,
`check_external_amount` accepts exactly when the first 24 bytes of
`public_amount` are zero and its last 8 bytes, read as a big-endian u64,
equal `|ext_amount| + fee` with that sum at most `i64::MAX`; the check is
an exact u64 equality, not a congruence to `−(|ext_amount|+fee) mod p`,
so `ext_amount = −90, fee = 10` requires `public_amount = 100`, not
`p − 100`. -/
theorem C1_withdrawal_check (ext : Int) (fee : Nat) (bytes : List Nat)
    (hneg : ext < 0) (hmin : -(2 ^ 63) < ext) (hlen : bytes.length = 32) :
    checkExternalAmount ext fee bytes = some (Except.ok ((-ext).toNat, fee)) ↔
      (bytes.take 24 = List.replicate 24 0 ∧
       beNat (bytes.drop 24) = (-ext).toNat + fee ∧
       (-ext).toNat + fee ≤ I64MAX) := by
  have htlen : (bytes.take 24).length = 24 := by
    simp only [List.length_take]
    omega
  unfold checkExternalAmount
  by_cases hpre : (bytes.take 24).any (fun b => b != 0) = true
  · rw [if_pos hpre]
    constructor
    · intro h
      simp at h
    · rintro ⟨h1, _⟩
      rw [h1] at hpre
      exact absurd hpre (by decide)
  · rw [if_neg hpre]
    have htake : bytes.take 24 = List.replicate 24 0 := by
      have h2 := (any_ne_zero_eq_false_iff (bytes.take 24)).mp
        (Bool.eq_false_iff.mpr hpre ▸ rfl)
      rwa [htlen] at h2
    simp only []
    by_cases hv : I64MAX < beNat (bytes.drop 24)
    · rw [if_pos hv]
      constructor
      · intro h
        simp at h
      · rintro ⟨_, h2, h3⟩
        omega
    · rw [if_neg hv, if_neg (by omega : ¬0 < ext), if_pos hneg,
        if_neg (by omega : ¬ext = -(2 ^ 63))]
      by_cases hov : U64MOD ≤ (-ext).toNat + fee
      · rw [if_pos hov]
        constructor
        · intro h
          simp at h
        · rintro ⟨_, _, h3⟩
          simp only [U64MOD, I64MAX] at hov h3
          omega
      · rw [if_neg hov]
        by_cases heq : beNat (bytes.drop 24) = (-ext).toNat + fee
        · rw [if_neg (by simpa using heq)]
          simp [htake, heq]
          omega
        · rw [if_pos (by simpa using heq)]
          constructor
          · intro h
            simp at h
          · rintro ⟨_, h2, _⟩
            exact absurd h2 heq

/-- C1 counterexample: at `ext_amount = −90`, `fee = 10` the code accepts
`public_amount = 100` (low-byte big-endian u64), yet `100` read as a
field element is not `p − ((90 + 10) mod p)`, so acceptance is not
equivalent to the congruence `public_amount ≡ −(|ext_amount|+fee) mod p`
stated by the claim. -/
theorem C1_counterexample :
    checkExternalAmount (-90) 10 enc100 = some (Except.ok (90, 10)) ∧
      beNat enc100 % FIELD_MODULUS ≠ FIELD_MODULUS - ((90 + 10) % FIELD_MODULUS) := by
  constructor
  · decide
  · decide

/-- C1 witness: the withdrawal example `ext_amount = −90, fee = 10,
public_amount = 100`. -/
theorem C1_witness :
    checkExternalAmount (-90) 10 enc100 = some (Except.ok ((-(-90 : Int)).toNat, 10)) ↔
      (enc100.take 24 = List.replicate 24 0 ∧
       beNat (enc100.drop 24) = (-(-90 : Int)).toNat + 10 ∧
       (-(-90 : Int)).toNat + 10 ≤ I64MAX) :=
  C1_withdrawal_check (-90) 10 enc100 (by decide) (by decide) (by decide)

/-- C4: at `ext_amount = i64::MIN` the code does not return an error on
all inputs: with an all-zero `public_amount` (which passes the byte
checks) it reaches `u64::try_from(-ext_amount).unwrap()`, where the
negation of `i64::MIN` overflows and the conversion fails, so the
function panics (modelled as `none`) instead of rejecting. -/
theorem C4_min_ext_amount_panics :
    checkExternalAmount (-(2 ^ 63)) 0 (List.replicate 32 0) = none := by
  decide

/-- C10: `change_endianness` is an involution — applying it twice returns
the original byte sequence — and it preserves the total length. -/
theorem C10_change_endianness (l : List Nat) :
    changeEndianness (changeEndianness l) = l ∧
    (changeEndianness l).length = l.length :=
  ⟨ce_invol l.length l le_rfl, ce_length l.length l le_rfl⟩

/-- C2 (amended): when `next_index = u64::MAX`, `append` fails with
`ArithmeticOverflow` and leaves `next_index`, `root_index`,
`root_history` and `subtrees` unchanged (every level index of
`u64::MAX` is odd, so the loop never writes a subtree) — but it has
already overwritten `root` with the newly computed top hash before the
overflow check on line 54, so the full persisted state is not untouched;
discarding that write is left to the runtime's transaction rollback. -/
theorem C2_overflow_append (H : Hasher) (acc : MerkleTreeAccount) (leaf : Nat)
    (hnext : acc.nextIndex = U64MOD - 1)
    (hsub : acc.subtrees.length = DEFAULT_HEIGHT) :
    (append H leaf acc).2 = Except.error ErrorCode.ArithmeticOverflow ∧
    (append H leaf acc).1.nextIndex = acc.nextIndex ∧
    (append H leaf acc).1.rootIndex = acc.rootIndex ∧
    (append H leaf acc).1.rootHistory = acc.rootHistory ∧
    (append H leaf acc).1.subtrees = acc.subtrees := by
  have hcond : U64MOD ≤ acc.nextIndex + 1 := by
    rw [hnext]
    simp only [U64MOD]
    omega
  have hodd : ∀ j, j < DEFAULT_HEIGHT → acc.nextIndex / 2 ^ j % 2 = 1 := by
    rw [hnext]
    decide
  have hsts : (appendLoop H 0 acc.nextIndex leaf acc.subtrees).1 = acc.subtrees := by
    apply appendLoop_subtrees_odd
    intro j hj
    exact hodd j (by omega)
  unfold append
  rw [if_pos hcond]
  exact ⟨rfl, rfl, rfl, rfl, hsts⟩

/-- C2 counterexample: on a state with `next_index = u64::MAX` (here
instantiating the generic hasher with `projHasher`), `append` returns
`ArithmeticOverflow` but the persisted `root` has changed from 5 to 7,
so the error does not leave the entire tree state as it was. -/
theorem C2_counterexample :
    (append projHasher 7 cexAcc).2 = Except.error ErrorCode.ArithmeticOverflow ∧
    cexAcc.root = 5 ∧ (append projHasher 7 cexAcc).1.root = 7 := by
  refine ⟨by decide, by decide, by decide⟩

/-- C2 witness: the amended theorem applied to the concrete state
`cexAcc` with the concrete hasher `projHasher`. -/
theorem C2_witness :
    (append projHasher 7 cexAcc).2 = Except.error ErrorCode.ArithmeticOverflow ∧
    (append projHasher 7 cexAcc).1.nextIndex = cexAcc.nextIndex ∧
    (append projHasher 7 cexAcc).1.rootIndex = cexAcc.rootIndex ∧
    (append projHasher 7 cexAcc).1.rootHistory = cexAcc.rootHistory ∧
    (append projHasher 7 cexAcc).1.subtrees = cexAcc.subtrees :=
  C2_overflow_append projHasher cexAcc 7 (by decide) (by decide)

/-- C5 (amended): the invariant `root_history[root_index] == root` holds
for the state produced by `initialize` and is preserved by every
`append` that returns `Ok`; an `append` that fails with
`ArithmeticOverflow` can break it, because it overwrites `root` without
updating `root_history` (see the C5 counterexample). -/
theorem C5_root_invariant (H : Hasher) (acc acc2 : MerkleTreeAccount)
    (leaf : Nat) (prf : List Nat)
    (hlen : acc.rootHistory.length = ROOT_HISTORY_SIZE)
    (hsucc : append H leaf acc = (acc2, Except.ok prf)) :
    (initTree H).rootHistory.getD (initTree H).rootIndex 0 = (initTree H).root ∧
    (acc.rootHistory.getD acc.rootIndex 0 = acc.root →
      acc2.rootHistory.getD acc2.rootIndex 0 = acc2.root) := by
  constructor
  · show ((List.replicate ROOT_HISTORY_SIZE 0).set 0
      (H.zeroBytes DEFAULT_HEIGHT)).getD 0 0 = H.zeroBytes DEFAULT_HEIGHT
    exact getD_set_self _ 0 _ (by simp [ROOT_HISTORY_SIZE])
  · intro _
    obtain ⟨_, _, hri, hroot, _, hhist⟩ := append_ok_fields H leaf acc acc2 prf hsucc
    rw [hri, hroot, hhist]
    exact getD_set_self _ _ _ (by rw [hlen]; exact Nat.mod_lt _ (by simp [ROOT_HISTORY_SIZE]))

/-- C5 counterexample: the state `cexAcc` satisfies the invariant, but
the (error-returning) `append` on it yields a state whose stored `root`
is no longer `root_history[root_index]`, so the invariant is not
preserved by appends that return an error. -/
theorem C5_counterexample :
    cexAcc.rootHistory.getD cexAcc.rootIndex 0 = cexAcc.root ∧
    (append projHasher 7 cexAcc).2 = Except.error ErrorCode.ArithmeticOverflow ∧
    (append projHasher 7 cexAcc).1.rootHistory.getD
        (append projHasher 7 cexAcc).1.rootIndex 0 ≠
      (append projHasher 7 cexAcc).1.root := by
  refine ⟨by decide, by decide, by decide⟩

/-- C5 witness: the amended theorem applied to a concrete successful
append on a freshly initialized tree. -/
theorem C5_witness :
    (initTree projHasher).rootHistory.getD (initTree projHasher).rootIndex 0 =
      (initTree projHasher).root ∧
    ((initTree projHasher).rootHistory.getD (initTree projHasher).rootIndex 0 =
        (initTree projHasher).root →
      (append projHasher 0 (initTree projHasher)).1.rootHistory.getD
          (append projHasher 0 (initTree projHasher)).1.rootIndex 0 =
        (append projHasher 0 (initTree projHasher)).1.root) :=
  C5_root_invariant projHasher (initTree projHasher)
    (append projHasher 0 (initTree projHasher)).1 0
    (match (append projHasher 0 (initTree projHasher)).2 with
      | Except.ok p => p
      | Except.error _ => [])
    (by decide) (by decide)

/-- C6: `is_known_root` rejects the all-zero candidate and otherwise
returns true exactly when the candidate equals some entry of the
`root_history` ring buffer (the backward scan from `root_index` with
wraparound covers every entry exactly once in one full cycle), for any
account whose history has its fixed size and whose cursor is in range. -/
theorem C6_known_root (acc : MerkleTreeAccount) (cand : Nat)
    (hlen : acc.rootHistory.length = ROOT_HISTORY_SIZE)
    (hidx : acc.rootIndex < ROOT_HISTORY_SIZE) :
    isKnownRoot acc cand = true ↔ (cand ≠ 0 ∧ cand ∈ acc.rootHistory) := by
  rw [isKnownRoot_iff acc cand hlen hidx]
  apply and_congr_right
  intro _
  constructor
  · rintro ⟨j, hj, hfound⟩
    rw [← hfound]
    exact mem_of_getD _ j (by omega)
  · intro hmem
    obtain ⟨j, hj, hg⟩ := getD_of_mem _ _ hmem
    exact ⟨j, by omega, hg⟩

/-- C6 witness: the characterization applied to a freshly initialized
tree with the concrete hasher, whose initial root 27 is in the
history. -/
theorem C6_witness :
    isKnownRoot (initTree projHasher) 27 = true ↔
      ((27 : Nat) ≠ 0 ∧ 27 ∈ (initTree projHasher).rootHistory) :=
  C6_known_root (initTree projHasher) 27 (by decide) (by decide)

/-- C7 (amended): starting from a freshly initialized accumulator, for
every `k ≤ 99` and every sequence of `k` appended leaves whose traced
roots are nonzero, all `k + 1` historical roots (the pre-append empty
root plus the root after each append) satisfy `is_known_root = true` on
the resulting state, and the all-zero value never satisfies
`is_known_root` on any state.  The bound is `k ≤ 99`, not `k ≤ 100`: the
100th append overwrites `root_history[0]`, which held the pre-append
empty root (see the C7 counterexample). -/
theorem C7_history_completeness (H : Hasher) (leaves : List Nat)
    (hk : leaves.length ≤ 99)
    (hnz : ∀ r ∈ historicalRoots H leaves, r ≠ 0) :
    (∀ r ∈ historicalRoots H leaves,
      isKnownRoot (appendAll H (initTree H) leaves) r = true) ∧
    (∀ acc : MerkleTreeAccount, isKnownRoot acc 0 = false) := by
  have hlen0 : (initTree H).rootHistory.length = ROOT_HISTORY_SIZE := by
    simp [initTree, treeInitialize, freshAccount]
  have hri0 : (initTree H).rootIndex = 0 := rfl
  have hni0 : (initTree H).nextIndex = 0 := rfl
  obtain ⟨f1, f2, f3, f4⟩ := appendAll_facts H leaves (initTree H) hlen0
    (by rw [hri0]; omega) (by rw [hni0]; omega)
  constructor
  · intro r hr
    rw [isKnownRoot_iff _ _ f1
      (by rw [f2, hri0]; simp only [ROOT_HISTORY_SIZE]; omega)]
    refine ⟨hnz r hr, ?_⟩
    rcases List.mem_cons.mp hr with rfl | hr2
    · refine ⟨0, by decide, ?_⟩
      rw [f3 0 (by rw [hri0])]
      exact getD_set_self _ 0 _ (by decide)
    · exact f4 r hr2
  · intro acc
    simp [isKnownRoot]

set_option maxRecDepth 100000 in
/-- C7 counterexample: instantiating the generic tree code with the
concrete hasher `projHasher` and appending `k = 100` leaves, every
traced root is nonzero, the pre-append empty root is among the `k + 1`
historical roots, yet `is_known_root` no longer recognizes it — the
100th append overwrote `root_history[0]` — so the claim's `k ≤ 100`
bound fails at `k = 100`. -/
theorem C7_counterexample :
    (List.replicate 100 (0 : Nat)).length ≤ 100 ∧
    (∀ r ∈ historicalRoots projHasher (List.replicate 100 0), r ≠ 0) ∧
    (initTree projHasher).root ∈ historicalRoots projHasher (List.replicate 100 0) ∧
    isKnownRoot (appendAll projHasher (initTree projHasher) (List.replicate 100 0))
      (initTree projHasher).root = false := by
  refine ⟨by decide, by decide, by decide, by decide⟩

/-- C7 witness: the amended theorem applied to a single append with the
concrete hasher. -/
theorem C7_witness :
    (∀ r ∈ historicalRoots projHasher [0],
      isKnownRoot (appendAll projHasher (initTree projHasher) [0]) r = true) ∧
    (∀ acc : MerkleTreeAccount, isKnownRoot acc 0 = false) :=
  C7_history_completeness projHasher [0] (by decide) (by decide)

/-- C8: every successful `transact` call (the embedded
`verify_and_process_transaction` returning `Ok`) increases the tree
account's `next_index` by exactly 2, one `append` per output commitment;
if either `append` fails, the error propagates and the call does not
return `Ok`. -/
theorem C8_transact_next_index (H : Hasher)
    (pdasOk authorityOk mintOk extDataHashOk amountOk proofOk : Bool)
    (transfersResult : Except ErrorCode Unit)
    (proofRoot c0 c1 : Nat) (acc acc2 : MerkleTreeAccount)
    (h : verifyAndProcessTransaction H pdasOk authorityOk mintOk extDataHashOk
        amountOk proofOk transfersResult proofRoot c0 c1 acc = (acc2, Except.ok ())) :
    acc2.nextIndex = acc.nextIndex + 2 := by
  unfold verifyAndProcessTransaction at h
  by_cases g1 : pdasOk = false
  · rw [if_pos g1] at h
    exact absurd h (by simp)
  rw [if_neg g1] at h
  by_cases g2 : authorityOk = false
  · rw [if_pos g2] at h
    exact absurd h (by simp)
  rw [if_neg g2] at h
  by_cases g3 : mintOk = false
  · rw [if_pos g3] at h
    exact absurd h (by simp)
  rw [if_neg g3] at h
  by_cases g4 : isKnownRoot acc proofRoot = false
  · rw [if_pos g4] at h
    exact absurd h (by simp)
  rw [if_neg g4] at h
  by_cases g5 : extDataHashOk = false
  · rw [if_pos g5] at h
    exact absurd h (by simp)
  rw [if_neg g5] at h
  by_cases g6 : amountOk = false
  · rw [if_pos g6] at h
    exact absurd h (by simp)
  rw [if_neg g6] at h
  by_cases g7 : proofOk = false
  · rw [if_pos g7] at h
    exact absurd h (by simp)
  rw [if_neg g7] at h
  cases transfersResult with
  | error e => exact absurd h (by simp)
  | ok u =>
    simp only [] at h
    rcases happ0 : append H c0 acc with ⟨acc1, r1⟩
    cases r1 with
    | error e =>
      rw [happ0] at h
      simp only [] at h
      exact absurd h (by simp)
    | ok p1 =>
      rw [happ0] at h
      simp only [] at h
      rcases happ1 : append H c1 acc1 with ⟨acc2b, r2⟩
      cases r2 with
      | error e =>
        rw [happ1] at h
        simp only [] at h
        exact absurd h (by simp)
      | ok p2 =>
        rw [happ1] at h
        simp only [] at h
        by_cases gov : U64MOD ≤ acc.nextIndex + 1
        · rw [if_pos gov] at h
          exact absurd h (by simp)
        · rw [if_neg gov] at h
          rw [Prod.mk.injEq] at h
          obtain ⟨ha, _⟩ := h
          subst ha
          obtain ⟨_, hn1, _⟩ := append_ok_fields H c0 acc acc1 p1 happ0
          obtain ⟨_, hn2, _⟩ := append_ok_fields H c1 acc1 acc2b p2 happ1
          omega

/-- C8 witness: a concrete all-checks-passing transaction on a fresh
tree, whose `next_index` goes from 0 to 2. -/
theorem C8_witness :
    (verifyAndProcessTransaction projHasher true true true true true true
        (Except.ok ()) 27 0 0 (initTree projHasher)).1.nextIndex =
      (initTree projHasher).nextIndex + 2 :=
  C8_transact_next_index projHasher true true true true true true (Except.ok ()) 27 0 0
    (initTree projHasher)
    (verifyAndProcessTransaction projHasher true true true true true true
        (Except.ok ()) 27 0 0 (initTree projHasher)).1
    (by decide)

/-- C9: the accumulator is a deterministic function of its input
sequence — two independently initialized accumulators fed the same
leaf sequence in the same order end with identical `root` and identical
`subtrees`. -/
theorem C9_determinism (H : Hasher) (L : List Nat) (a b : MerkleTreeAccount)
    (ha : a = initTree H) (hb : b = initTree H) :
    (appendAll H a L).root = (appendAll H b L).root ∧
    (appendAll H a L).subtrees = (appendAll H b L).subtrees := by
  subst ha hb
  exact ⟨rfl, rfl⟩

/-- C9 witness: the determinism theorem applied to two concrete fresh
accumulators and a concrete leaf sequence. -/
theorem C9_witness :
    (appendAll projHasher (initTree projHasher) [1, 2, 3]).root =
      (appendAll projHasher (initTree projHasher) [1, 2, 3]).root ∧
    (appendAll projHasher (initTree projHasher) [1, 2, 3]).subtrees =
      (appendAll projHasher (initTree projHasher) [1, 2, 3]).subtrees :=
  C9_determinism projHasher [1, 2, 3] (initTree projHasher) (initTree projHasher) rfl rfl

end PrivacyCash
